import Mathlib

/-!
Verification of the turn-artifact storage core of the game-repository
service: a shallow embedding of `main.go` (the `cleanup` sweep, the
supervision wiring in `run`/`main`, and `makeDefaults`), plus a
spec-modelled Artifact Manager for the upload/download round trip
(the `api/turn` package is not part of the sources at hand).
-/

namespace GameRepository

/-- One row of the `metadata` table (`model.Metadata`): a blob location,
its size, a nullable link to a turn, and the creation timestamp used by
the spec's grace-period reasoning.  Identifiers and timestamps are
numbers, blob paths are strings. -/
structure Metadata where
  id : Nat
  path : String
  size : Nat
  turnId : Option Nat
  createdAt : Nat
deriving DecidableEq, Repr

/-- Outcome of one `os.Remove` call, as `cleanup` distinguishes them:
success, `os.ErrNotExist`, or any other I/O error. -/
inductive RemoveOutcome where
  | removed
  | notExist
  | ioError
deriving DecidableEq, Repr

/-- The blob store (data directory): the set of paths that currently hold
a file, plus the paths whose removal fails with an I/O error other than
`os.ErrNotExist`. -/
structure FS where
  present : List String
  failing : List String
deriving DecidableEq, Repr

/-- Semantics of `os.Remove p`: a path in `failing` errors out and the
file system is unchanged; a present path is removed; an absent path
reports `os.ErrNotExist`. -/
def FS.remove (fs : FS) (p : String) : RemoveOutcome × FS :=
  if p ∈ fs.failing then (.ioError, fs)
  else if p ∈ fs.present then
    (.removed, { fs with present := fs.present.filter (fun q => q ≠ p) })
  else (.notExist, fs)

/-- The `SELECT` in `cleanup`: `tx.Where("turn_id IS NULL").Find(&metadata)`.
The only condition is `turn_id IS NULL`; there is no `created_at` filter. -/
def selectUnlinked (table : List Metadata) : List Metadata :=
  table.filter (fun m => m.turnId.isNone)

/-- The blob-removal loop of `cleanup`: for each selected record, run
`os.Remove(m.Path)`; on success or `os.ErrNotExist` the id is appended to
`deleted`, on any other error the record is skipped (logged only).
Returns the collected ids and the file system after the loop. -/
def removeLoop : FS → List Metadata → List Nat × FS
  | fs, [] => ([], fs)
  | fs, m :: ms =>
    let step := fs.remove m.path
    let rest := removeLoop step.2 ms
    match step.1 with
    | .ioError => rest
    | _ => (m.id :: rest.1, rest.2)

/-- Result of one sweep: the committed metadata table after the
transaction, the file system after the blob removals, and the value
`cleanup` returns (the `Count` of the selection). -/
structure SweepResult where
  table : List Metadata
  fs : FS
  count : Nat
deriving DecidableEq, Repr

/-- `cleanup(db)` from `main.go`: inside one transaction, select all rows
with `turn_id IS NULL` and count them into `n`; remove each selected
record's blob, collecting into `deleted` the ids whose removal succeeded
or hit `os.ErrNotExist`; finally `tx.Delete` the rows with those ids and
commit; `n` is returned. -/
def cleanup (table : List Metadata) (fs : FS) : SweepResult :=
  let selected := selectUnlinked table
  let n := selected.length
  let loop := removeLoop fs selected
  { table := table.filter (fun m => decide (m.id ∉ loop.1))
    fs := loop.2
    count := n }

/-- A snapshot of the durable state mid-sweep: what the committed table
and the file system hold at that instant.  Row deletions issued inside
the open transaction are not visible in `committed` until the commit. -/
structure DBState where
  committed : List Metadata
  fs : FS
deriving DecidableEq, Repr

/-- File system after removing the blobs of the first `k` selected
records. -/
def fsAfter (fs : FS) (ms : List Metadata) : FS :=
  (removeLoop fs ms).2

/-- The durable states a sweep passes through: one snapshot before each
blob removal and after the last one (committed table unchanged
throughout, since the row deletions only land at commit), then the
post-commit snapshot. -/
def sweepTrace (table : List Metadata) (fs : FS) : List DBState :=
  ((List.range ((selectUnlinked table).length + 1)).map
    (fun k => ⟨table, fsAfter fs ((selectUnlinked table).take k)⟩))
  ++ [⟨(cleanup table fs).table, (cleanup table fs).fs⟩]

/-- A sweep interrupted after `k` blob removals, before commit: the
transaction rolls back, so the committed table is the original one and
only the file-system effects persist. -/
def abortedSweep (table : List Metadata) (fs : FS) (k : Nat) : DBState :=
  ⟨table, fsAfter fs ((selectUnlinked table).take k)⟩

/-- The ids the sweep hands to `tx.Delete`: those of the selected
records whose blob removal succeeded or hit `os.ErrNotExist`. -/
def reclaimedIds (table : List Metadata) (fs : FS) : List Nat :=
  (removeLoop fs (selectUnlinked table)).1

/-- The process configuration (`Configuration` in `main.go`).
`cleanupInterval` is a `time.Duration` in nanoseconds.  The field
`apiRoot` embeds the source's API-prefix setting. -/
structure Configuration where
  postgresUrl : String
  listenAddress : String
  apiRoot : String
  dataDir : String
  enableSwagger : Bool
  cleanupInterval : Int
deriving DecidableEq, Repr

/-- `makeDefaults` from `main.go`: fill each zero-valued field with its
default; `time.Hour` is 3600000000000 ns. -/
def makeDefaults (c : Configuration) : Configuration :=
  let c1 := if c.apiRoot = "" then { c with apiRoot := "/" } else c
  let c2 := if c1.listenAddress = "" then { c1 with listenAddress := "localhost:3000" } else c1
  let c3 := if c2.dataDir = "" then { c2 with dataDir := "data" } else c2
  if c3.cleanupInterval = 0 then { c3 with cleanupInterval := 3600000000000 } else c3

/-- Seed data for evaluating the sweep on concrete inputs: a record
linked to turn 3. -/
def mLinked : Metadata :=
  { id := 8, path := "linked.zip", size := 20, turnId := some 3, createdAt := 0 }

/-- An unlinked record created at time 999, i.e. freshly, within any
reasonable grace period of a sweep that runs right after. -/
def mFresh : Metadata :=
  { id := 7, path := "fresh.zip", size := 10, turnId := none, createdAt := 999 }

/-- Blob store holding the blobs of `mLinked` and `mFresh`. -/
def fsSeed : FS := { present := ["fresh.zip", "linked.zip"], failing := [] }

/-- An unlinked record created at time 0, long before any sweep. -/
def mStale : Metadata :=
  { id := 1, path := "a.zip", size := 5, turnId := none, createdAt := 0 }

/-- Blob store holding only the blob of `mStale`. -/
def fsStale : FS := { present := ["a.zip"], failing := [] }

/-- An unlinked stale record whose blob removal fails with an I/O error
other than `os.ErrNotExist`. -/
def mStuck : Metadata :=
  { id := 2, path := "stuck.zip", size := 1, turnId := none, createdAt := 0 }

/-- Blob store where removing `stuck.zip` fails with a non-`ErrNotExist`
I/O error. -/
def fsStuck : FS := { present := ["stuck.zip"], failing := ["stuck.zip"] }

/-- Blob store holding the blobs of `mStale` and `mStuck`, where only
the removal of `stuck.zip` fails. -/
def fsMix : FS := { present := ["a.zip", "stuck.zip"], failing := ["stuck.zip"] }

/-- Events the reclamation goroutine in `run` reacts to: a ticker tick
(carrying the sweep's error, if any) or the cancellation of the group
context. -/
inductive LoopEvent where
  | tick (sweepErr : Option String)
  | ctxDone
deriving DecidableEq, Repr

/-- Observable status of the reclamation goroutine: still selecting on
the ticker, or returned (always with a nil error in this code), in both
cases with the list of sweep errors it has passed to `log.Print`. -/
inductive LoopStatus where
  | running (logged : List String)
  | finished (logged : List String)
deriving DecidableEq, Repr

/-- The reclamation goroutine body in `run`: on a tick, call `cleanup`
and `log.Print` its error if non-nil, then loop again; on `ctx.Done`,
return nil immediately. -/
def runLoop : List String → List LoopEvent → LoopStatus
  | logged, [] => .running logged
  | logged, .tick none :: es => runLoop logged es
  | logged, .tick (some e) :: es => runLoop (logged ++ [e]) es
  | logged, .ctxDone :: _ => .finished logged

/-- Sweep errors a list of events would make the goroutine log. -/
def tickErrors (es : List LoopEvent) : List String :=
  es.filterMap (fun e => match e with
    | .tick (some msg) => some msg
    | _ => none)

/-- Result of one task spawned with `g.Go`: nil or a non-nil error. -/
inductive Outcome where
  | ok
  | err (msg : String)
deriving DecidableEq, Repr

/-- `errgroup.WithContext` cancels the shared context as soon as any
task of the group returns a non-nil error. -/
def groupCancels (httpOutcome loopOutcome : Outcome) : Bool :=
  httpOutcome ≠ .ok ∨ loopOutcome ≠ .ok

/-- `g.Wait()`: the first non-nil error returned by a task, else nil. -/
def groupWait (httpOutcome loopOutcome : Outcome) : Outcome :=
  match httpOutcome with
  | .err e => .err e
  | .ok => loopOutcome

/-- `main`: `run`'s error goes to `log.Fatal`, which exits with status 1;
a nil result exits 0. -/
def processExit (httpOutcome loopOutcome : Outcome) : Nat :=
  match groupWait httpOutcome loopOutcome with
  | .ok => 0
  | .err _ => 1

end GameRepository

namespace TurnStore

/-- Modelled from the spec: the `api/turn` package (Artifact Manager) is
not among the sources at hand, so its data model follows §3/§4.1 of the
specification.  A metadata record as the Artifact Manager sees it; blob
paths are the opaque tokens of §2, modelled as numbers handed out by a
collision-free counter. -/
structure SpecMeta where
  path : Nat
  size : Nat
  turnId : Option Nat
deriving DecidableEq, Repr

/-- Modelled from the spec: the Blob Store (path-keyed blobs, §2) paired
with the metadata table and the next unused path token, which makes the
write target of §4.1 step 1 collision-free. -/
structure ArtifactState where
  blobs : List (Nat × List Nat)
  table : List SpecMeta
  fresh : Nat
deriving DecidableEq, Repr

/-- Modelled from the spec: read-blob of the Blob Store. -/
def lookupBlob (blobs : List (Nat × List Nat)) (p : Nat) : Option (List Nat) :=
  (blobs.find? (fun b => b.1 == p)).map (fun b => b.2)

/-- Modelled from the spec: `Upload(turnId, contentStream)` (§4.1).
Write the stream to a fresh blob path, then in one transaction insert a
record `{path, size, turn_id = turnId}` superseding the turn's previous
record, commit, and best-effort delete the superseded blob (step 4).
Returns the new state and the new record. -/
def upload (s : ArtifactState) (tid : Nat) (content : List Nat) :
    ArtifactState × SpecMeta :=
  let p := s.fresh
  let m : SpecMeta := { path := p, size := content.length, turnId := some tid }
  let old := s.table.find? (fun r => r.turnId == some tid)
  let blobs1 := (p, content) :: s.blobs
  let blobs2 := match old with
    | none => blobs1
    | some r => blobs1.filter (fun b => b.1 ≠ r.path)
  ({ blobs := blobs2
     table := m :: s.table.filter (fun r => r.turnId != some tid)
     fresh := p + 1 }, m)

/-- Modelled from the spec: `Download(turnId)` (§4.1).  Resolve the
turn's current metadata record, then open its blob; `none` stands for
the `NotFound` and `IOFailure` error outcomes. -/
def download (s : ArtifactState) (tid : Nat) : Option (List Nat × Nat) :=
  match s.table.find? (fun r => r.turnId == some tid) with
  | none => none
  | some m =>
    match lookupBlob s.blobs m.path with
    | none => none
    | some bytes => some (bytes, m.size)

end TurnStore

namespace GameRepository

theorem removeLoop_cons (fs : FS) (m : Metadata) (ms : List Metadata) :
    removeLoop fs (m :: ms) =
      if m.path ∈ fs.failing then removeLoop fs ms
      else if m.path ∈ fs.present then
        let rest :=
          removeLoop { fs with present := fs.present.filter (fun q => q ≠ m.path) } ms
        (m.id :: rest.1, rest.2)
      else (m.id :: (removeLoop fs ms).1, (removeLoop fs ms).2) := by
  simp only [removeLoop, FS.remove]
  split_ifs <;> rfl

theorem removeLoop_failing (fs : FS) (ms : List Metadata) :
    (removeLoop fs ms).2.failing = fs.failing := by
  induction ms generalizing fs with
  | nil => rfl
  | cons m ms ih =>
    rw [removeLoop_cons]
    split_ifs <;> simp [ih]

theorem removeLoop_present_subset (fs : FS) (ms : List Metadata) (q : String)
    (h : q ∈ (removeLoop fs ms).2.present) : q ∈ fs.present := by
  induction ms generalizing fs with
  | nil => exact h
  | cons m ms ih =>
    rw [removeLoop_cons] at h
    split_ifs at h with h1 h2
    · exact ih fs h
    · have := ih _ h
      simp only [List.mem_filter] at this
      exact this.1
    · exact ih fs h

theorem removeLoop_ids_sublist (fs : FS) (ms : List Metadata) :
    List.Sublist (removeLoop fs ms).1 (ms.map Metadata.id) := by
  induction ms generalizing fs with
  | nil => simp [removeLoop]
  | cons m ms ih =>
    rw [removeLoop_cons]
    by_cases h1 : m.path ∈ fs.failing
    · rw [if_pos h1]
      exact (ih fs).cons m.id
    · rw [if_neg h1]
      by_cases h2 : m.path ∈ fs.present
      · rw [if_pos h2]
        exact (ih _).cons₂ m.id
      · rw [if_neg h2]
        exact (ih fs).cons₂ m.id

theorem removeLoop_mem_ids (fs : FS) (ms : List Metadata) (m : Metadata)
    (hm : m ∈ ms) (hok : m.path ∉ fs.failing) :
    m.id ∈ (removeLoop fs ms).1 := by
  induction ms generalizing fs with
  | nil => cases hm
  | cons a ms ih =>
    rw [removeLoop_cons]
    by_cases h1 : a.path ∈ fs.failing
    · rw [if_pos h1]
      rcases List.mem_cons.mp hm with rfl | hm2
      · exact absurd h1 hok
      · exact ih fs hm2 hok
    · rw [if_neg h1]
      by_cases h2 : a.path ∈ fs.present
      · rw [if_pos h2]
        rcases List.mem_cons.mp hm with rfl | hm2
        · exact List.mem_cons_self _ _
        · exact List.mem_cons_of_mem _ (ih _ hm2 hok)
      · rw [if_neg h2]
        rcases List.mem_cons.mp hm with rfl | hm2
        · exact List.mem_cons_self _ _
        · exact List.mem_cons_of_mem _ (ih fs hm2 hok)

theorem removeLoop_ids_spec (fs : FS) (ms : List Metadata) (i : Nat)
    (hi : i ∈ (removeLoop fs ms).1) :
    ∃ m ∈ ms, m.id = i ∧ m.path ∉ fs.failing ∧
      m.path ∉ (removeLoop fs ms).2.present := by
  induction ms generalizing fs with
  | nil => cases hi
  | cons a ms ih =>
    rw [removeLoop_cons] at hi ⊢
    split_ifs at hi ⊢ with h1 h2
    · obtain ⟨m, hm, he, hf, hp⟩ := ih fs hi
      exact ⟨m, List.mem_cons_of_mem _ hm, he, hf, hp⟩
    · rcases List.mem_cons.mp hi with rfl | hi2
      · refine ⟨a, List.mem_cons_self _ _, rfl, h1, fun hp => ?_⟩
        have := removeLoop_present_subset _ _ _ hp
        simp only [List.mem_filter, decide_eq_true_eq] at this
        exact this.2 rfl
      · obtain ⟨m, hm, he, hf, hp⟩ := ih _ hi2
        exact ⟨m, List.mem_cons_of_mem _ hm, he, fun hx => hf hx, hp⟩
    · rcases List.mem_cons.mp hi with rfl | hi2
      · exact ⟨a, List.mem_cons_self _ _, rfl, h1,
          fun hp => h2 (removeLoop_present_subset _ _ _ hp)⟩
      · obtain ⟨m, hm, he, hf, hp⟩ := ih fs hi2
        exact ⟨m, List.mem_cons_of_mem _ hm, he, hf, hp⟩

theorem removeLoop_length (fs : FS) (ms : List Metadata) :
    ms.length = (removeLoop fs ms).1.length +
      (ms.filter (fun m => decide (m.path ∈ fs.failing))).length := by
  induction ms generalizing fs with
  | nil => rfl
  | cons m ms ih =>
    rw [removeLoop_cons]
    by_cases h1 : m.path ∈ fs.failing
    · have hf : (m :: ms).filter (fun a => decide (a.path ∈ fs.failing)) =
          m :: ms.filter (fun a => decide (a.path ∈ fs.failing)) := by
        simp [List.filter_cons, h1]
      rw [if_pos h1, hf]
      have := ih fs
      simp only [List.length_cons]
      omega
    · have hf : (m :: ms).filter (fun a => decide (a.path ∈ fs.failing)) =
          ms.filter (fun a => decide (a.path ∈ fs.failing)) := by
        simp [List.filter_cons, h1]
      rw [if_neg h1, hf]
      by_cases h2 : m.path ∈ fs.present
      · rw [if_pos h2]
        have := ih { fs with present := fs.present.filter (fun q => q ≠ m.path) }
        have h3 : ({ fs with present := fs.present.filter (fun q => q ≠ m.path) } : FS).failing
            = fs.failing := rfl
        rw [h3] at this
        simp only [List.length_cons]
        omega
      · rw [if_neg h2]
        have := ih fs
        simp only [List.length_cons]
        omega

theorem removeLoop_present_preserved (fs : FS) (ms : List Metadata) (q : String)
    (hq : q ∈ fs.present) (hne : ∀ m ∈ ms, m.path ≠ q) :
    q ∈ (removeLoop fs ms).2.present := by
  induction ms generalizing fs with
  | nil => exact hq
  | cons a ms ih =>
    have hne2 : ∀ m ∈ ms, m.path ≠ q := fun m hm => hne m (List.mem_cons_of_mem _ hm)
    rw [removeLoop_cons]
    by_cases h1 : a.path ∈ fs.failing
    · rw [if_pos h1]
      exact ih fs hq hne2
    · rw [if_neg h1]
      by_cases h2 : a.path ∈ fs.present
      · rw [if_pos h2]
        refine ih _ ?_ hne2
        simp only [List.mem_filter, decide_eq_true_eq]
        exact ⟨hq, fun he => hne a (List.mem_cons_self _ _) (he ▸ rfl)⟩
      · rw [if_neg h2]
        exact ih fs hq hne2

theorem filter_mem_of_sublist {l d : List Nat} (hd : List.Sublist d l)
    (hl : l.Nodup) : l.filter (fun i => decide (i ∈ d)) = d := by
  induction hd with
  | slnil => rfl
  | cons a hsub ih =>
    rw [List.nodup_cons] at hl
    have ha : a ∉ _ := fun hmem => hl.1 (hsub.subset hmem)
    rw [List.filter_cons, if_neg (by simpa using ha)]
    exact ih hl.2
  | @cons₂ d2 l2 a hsub ih =>
    rw [List.nodup_cons] at hl
    rw [List.filter_cons, if_pos (by simp)]
    have hcongr : l2.filter (fun i => decide (i ∈ a :: d2)) =
        l2.filter (fun i => decide (i ∈ d2)) := by
      refine List.filter_congr (fun x hx => ?_)
      have hxa : x ≠ a := fun he => hl.1 (he ▸ hx)
      simp [List.mem_cons, hxa]
    rw [hcongr, ih hl.2]

theorem reclaimedIds_sublist (table : List Metadata) (fs : FS) :
    List.Sublist (reclaimedIds table fs) (table.map Metadata.id) :=
  (removeLoop_ids_sublist fs (selectUnlinked table)).trans
    (List.Sublist.map Metadata.id (List.filter_sublist table))

theorem cleanup_table_length (table : List Metadata) (fs : FS)
    (hids : (table.map Metadata.id).Nodup) :
    (cleanup table fs).table.length + (reclaimedIds table fs).length
      = table.length := by
  have hsub := reclaimedIds_sublist table fs
  have hkept : (cleanup table fs).table.length =
      table.countP (fun m => decide (m.id ∉ reclaimedIds table fs)) := by
    rw [List.countP_eq_length_filter]
    rfl
  have hdel : table.countP (fun m => decide (m.id ∈ reclaimedIds table fs)) =
      (reclaimedIds table fs).length := by
    have hmap := List.countP_map (fun i => decide (i ∈ reclaimedIds table fs))
      Metadata.id table
    rw [List.countP_eq_length_filter, filter_mem_of_sublist hsub hids] at hmap
    rw [hmap]
    rfl
  have hsplit := List.length_eq_countP_add_countP
    (fun m => decide (m.id ∈ reclaimedIds table fs)) table
  have hagree : table.countP (fun m => decide (m.id ∉ reclaimedIds table fs)) =
      table.countP (fun m => decide (¬(decide (m.id ∈ reclaimedIds table fs) = true))) := by
    refine List.countP_congr (fun m _ => ?_)
    simp
  rw [hkept, hagree]
  omega

theorem runLoop_go (logged : List String) (es : List LoopEvent)
    (h : LoopEvent.ctxDone ∉ es) :
    runLoop logged es = .running (logged ++ tickErrors es) := by
  induction es generalizing logged with
  | nil => simp [runLoop, tickErrors]
  | cons e es ih =>
    rw [List.mem_cons] at h
    push_neg at h
    match e with
    | .ctxDone => exact absurd rfl h.1
    | .tick none => simpa [runLoop, tickErrors] using ih logged h.2
    | .tick (some msg) =>
      simp only [runLoop, tickErrors, List.filterMap_cons]
      rw [ih (logged ++ [msg]) h.2]
      simp [tickErrors]

/-- C7: as long as the group context is not cancelled, the reclamation
goroutine in `run` is still looping on its ticker after any sequence of
ticks, having logged exactly the errors of the failed sweeps: a failed
sweep never terminates the loop. -/
theorem runLoop_survives_errors (es : List LoopEvent)
    (h : LoopEvent.ctxDone ∉ es) :
    runLoop [] es = .running (tickErrors es) := by
  simpa using runLoop_go [] es h

/-- C7 witness: two failed sweeps and a clean one leave the loop running
with both errors logged. -/
theorem runLoop_survives_errors_witness :
    runLoop [] [.tick (some "db down"), .tick none, .tick (some "db down again")] =
      .running ["db down", "db down again"] :=
  runLoop_survives_errors _ (by decide)

/-- C8: the HTTP task and the reclamation loop are fate-sharing siblings
of one `errgroup`: if either ends with a non-nil error, the shared
context is cancelled, the reclamation goroutine returns when it sees
`ctx.Done()`, and `main` exits non-zero through `log.Fatal`. -/
theorem fate_sharing (httpOutcome loopOutcome : Outcome)
    (h : httpOutcome ≠ .ok ∨ loopOutcome ≠ .ok) :
    groupCancels httpOutcome loopOutcome = true ∧
    runLoop [] [.ctxDone] = .finished [] ∧
    processExit httpOutcome loopOutcome ≠ 0 := by
  refine ⟨by simp [groupCancels, h], rfl, ?_⟩
  match httpOutcome, loopOutcome, h with
  | .err e, _, _ => simp [processExit, groupWait]
  | .ok, .err e, _ => simp [processExit, groupWait]
  | .ok, .ok, h => exact absurd rfl (h.elim id id)

/-- C8 witness: a crashed HTTP listener cancels the sibling and the
process exits non-zero. -/
theorem fate_sharing_witness :
    groupCancels (.err "listen: address in use") .ok = true ∧
    runLoop [] [.ctxDone] = .finished [] ∧
    processExit (.err "listen: address in use") .ok ≠ 0 :=
  fate_sharing (.err "listen: address in use") .ok (Or.inl (by simp))

/-- C10: `makeDefaults` fills exactly the zero-valued fields with their
defaults (`/`, `localhost:3000`, `data`, one hour) and never touches a
field that is already set; `postgresUrl` and `enableSwagger` are
unchanged in all cases. -/
theorem makeDefaults_frame (c : Configuration) :
    (makeDefaults c).postgresUrl = c.postgresUrl ∧
    (makeDefaults c).enableSwagger = c.enableSwagger ∧
    (makeDefaults c).apiRoot = (if c.apiRoot = "" then "/" else c.apiRoot) ∧
    (makeDefaults c).listenAddress =
      (if c.listenAddress = "" then "localhost:3000" else c.listenAddress) ∧
    (makeDefaults c).dataDir = (if c.dataDir = "" then "data" else c.dataDir) ∧
    (makeDefaults c).cleanupInterval =
      (if c.cleanupInterval = 0 then 3600000000000 else c.cleanupInterval) := by
  simp only [makeDefaults]
  split_ifs <;> simp_all

end GameRepository

namespace TurnStore

/-- C9: downloading immediately after a successful upload yields exactly
the uploaded bytes, whose length is the size recorded in the returned
metadata.  The hypothesis is the Blob Store's collision-freedom
invariant: every committed record's path token was allocated below the
fresh counter. -/
theorem upload_download_roundtrip (s : ArtifactState) (tid : Nat)
    (content : List Nat)
    (hfresh : ∀ r ∈ s.table, r.path < s.fresh) :
    download (upload s tid content).1 tid = some (content, content.length) ∧
    (upload s tid content).2.size = content.length := by
  refine ⟨?_, rfl⟩
  simp only [download, upload, List.find?_cons_of_pos, beq_self_eq_true]
  cases hold : s.table.find? (fun r => r.turnId == some tid) with
  | none => simp [lookupBlob]
  | some r =>
    have hr : r ∈ s.table := List.mem_of_find?_eq_some hold
    have hne : s.fresh ≠ r.path := Nat.ne_of_gt (hfresh r hr)
    simp [lookupBlob, List.find?_cons, hne]

/-- C9 witness: uploading three bytes into an empty store and reading
them back. -/
theorem upload_download_roundtrip_witness :
    download (upload ⟨[], [], 0⟩ 1 [9, 8, 7]).1 1 = some ([9, 8, 7], 3) ∧
    (upload ⟨[], [], 0⟩ 1 [9, 8, 7]).2.size = 3 :=
  upload_download_roundtrip ⟨[], [], 0⟩ 1 [9, 8, 7] (by simp)

end TurnStore

namespace GameRepository

theorem cleanup_table_eq (table : List Metadata) (fs : FS) :
    (cleanup table fs).table =
      table.filter (fun m => decide (m.id ∉ reclaimedIds table fs)) := rfl

theorem cleanup_fs_eq (table : List Metadata) (fs : FS) :
    (cleanup table fs).fs = (removeLoop fs (selectUnlinked table)).2 := rfl

theorem cleanup_count_eq (table : List Metadata) (fs : FS) :
    (cleanup table fs).count = (selectUnlinked table).length := rfl

/-- C1: the claim says a sweep selects only records with null `turn_id`
whose `created_at` is older than the grace period and never deletes a
younger record.  `cleanup` in `main.go` filters on `turn_id IS NULL`
alone, with no `created_at` condition, so the unlinked-but-fresh record
`mFresh` is selected and both its row and its blob are deleted by one
sweep over a table it shares with a linked record. -/
theorem sweep_deletes_fresh_record :
    selectUnlinked [mLinked, mFresh] = [mFresh] ∧
    (cleanup [mLinked, mFresh] fsSeed).table = [mLinked] ∧
    mFresh.path ∉ (cleanup [mLinked, mFresh] fsSeed).fs.present := by
  decide

/-- C2: a record whose `turn_id` is non-null is never selected by the
sweep, so neither its row nor its blob is deleted, regardless of its
age.  The hypotheses state that `id` is a primary key and that blob
paths are unique across records. -/
theorem sweep_preserves_linked (table : List Metadata) (fs : FS) (m : Metadata)
    (hm : m ∈ table) (hlinked : m.turnId ≠ none)
    (hids : (table.map Metadata.id).Nodup)
    (hpaths : (table.map Metadata.path).Nodup) :
    m ∈ (cleanup table fs).table ∧
    (m.path ∈ fs.present → m.path ∈ (cleanup table fs).fs.present) := by
  constructor
  · rw [cleanup_table_eq]
    refine List.mem_filter.mpr ⟨hm, ?_⟩
    simp only [decide_eq_true_eq]
    intro hin
    obtain ⟨m', hm', he, -, -⟩ := removeLoop_ids_spec _ _ _ hin
    have hm'tab : m' ∈ table := (List.mem_filter.mp hm').1
    have heq : m' = m := List.inj_on_of_nodup_map hids hm'tab hm he
    subst heq
    exact hlinked (Option.isNone_iff_eq_none.mp
      (by simpa using (List.mem_filter.mp hm').2))
  · intro hp
    rw [cleanup_fs_eq]
    refine removeLoop_present_preserved fs _ _ hp (fun m' hm' he => ?_)
    have hm'tab : m' ∈ table := (List.mem_filter.mp hm').1
    have heq : m' = m := List.inj_on_of_nodup_map hpaths hm'tab hm he
    subst heq
    exact hlinked (Option.isNone_iff_eq_none.mp
      (by simpa using (List.mem_filter.mp hm').2))

/-- C2 witness: the linked record of the seed table survives the sweep,
row and blob. -/
theorem sweep_preserves_linked_witness :
    mLinked ∈ (cleanup [mLinked, mFresh] fsSeed).table ∧
    (mLinked.path ∈ fsSeed.present →
      mLinked.path ∈ (cleanup [mLinked, mFresh] fsSeed).fs.present) :=
  sweep_preserves_linked [mLinked, mFresh] fsSeed mLinked
    (by decide) (by decide) (by decide) (by decide)

/-- C3 counterexample: the claim forbids any instant at which a blob has
been removed while the committed table still holds a row referencing
it.  `cleanup` removes blobs inside the open transaction, before the row
deletion commits: in the sweep over one stale record there is a
reachable durable state where the blob of `mStale` is gone but its row
is still committed. -/
theorem blob_removed_before_commit :
    ∃ s ∈ sweepTrace [mStale] fsStale,
      mStale ∈ s.committed ∧ mStale.path ∉ s.fs.present := by
  decide

/-- C3 (amended): blobs are deleted before rows, not after; what holds
is the converse ordering: a row is removed from the committed table only
if its blob has already been deleted or was already absent when the
sweep reached it. -/
theorem row_deleted_only_after_blob (table : List Metadata) (fs : FS)
    (m : Metadata) (hids : (table.map Metadata.id).Nodup) (hm : m ∈ table)
    (hdel : m ∉ (cleanup table fs).table) :
    m.path ∉ (cleanup table fs).fs.present := by
  rw [cleanup_table_eq] at hdel
  rw [cleanup_fs_eq]
  have hid : m.id ∈ reclaimedIds table fs := by
    by_contra hno
    exact hdel (List.mem_filter.mpr ⟨hm, by simpa using hno⟩)
  obtain ⟨m', hm', he, -, hp⟩ := removeLoop_ids_spec _ _ _ hid
  have hm'tab : m' ∈ table := (List.mem_filter.mp hm').1
  have heq : m' = m := List.inj_on_of_nodup_map hids hm'tab hm he
  exact heq ▸ hp

/-- C3 amended witness: the one record the sweep deletes from the seed
table has no blob left behind. -/
theorem row_deleted_only_after_blob_witness :
    mStale.path ∉ (cleanup [mStale] fsStale).fs.present :=
  row_deleted_only_after_blob [mStale] fsStale mStale
    (by decide) (by decide) (by decide)

/-- C4: error handling is per record: a selected record whose blob
removal does not fail with an unexpected I/O error (it succeeds or hits
`os.ErrNotExist`) has its row deleted; one whose removal fails with any
other I/O error keeps its row, excluded from the batch.  Both facts hold
for every record independently of the other records' outcomes, so one
failure never aborts the rest of the run. -/
theorem sweep_per_record_isolation (table : List Metadata) (fs : FS)
    (m : Metadata) (hids : (table.map Metadata.id).Nodup)
    (hm : m ∈ selectUnlinked table) :
    (m.path ∉ fs.failing → m ∉ (cleanup table fs).table) ∧
    (m.path ∈ fs.failing → m ∈ (cleanup table fs).table) := by
  constructor
  · intro hok hmem
    rw [cleanup_table_eq] at hmem
    have hpred := (List.mem_filter.mp hmem).2
    simp only [decide_eq_true_eq] at hpred
    exact hpred (removeLoop_mem_ids fs _ m hm hok)
  · intro hfail
    rw [cleanup_table_eq]
    refine List.mem_filter.mpr ⟨(List.mem_filter.mp hm).1, ?_⟩
    simp only [decide_eq_true_eq]
    intro hin
    obtain ⟨m', hm', he, hf, -⟩ := removeLoop_ids_spec _ _ _ hin
    have heq : m' = m := List.inj_on_of_nodup_map hids
      (List.mem_filter.mp hm').1 (List.mem_filter.mp hm).1 he
    subst heq
    exact hf hfail

/-- C4 witness: over one table, the record with the failing blob keeps
its row while the record whose blob is removable loses its row in the
same run. -/
theorem sweep_per_record_isolation_witness :
    mStale ∉ (cleanup [mStale, mStuck] fsMix).table ∧
    mStuck ∈ (cleanup [mStale, mStuck] fsMix).table :=
  ⟨(sweep_per_record_isolation [mStale, mStuck] fsMix mStale
      (by decide) (by decide)).1 (by decide),
   (sweep_per_record_isolation [mStale, mStuck] fsMix mStuck
      (by decide) (by decide)).2 (by decide)⟩

/-- C5: selection and row deletion happen in one transaction with the
row deletion as the final step: every durable state of a sweep except
the post-commit one carries the unchanged table, a sweep aborted after
any number of blob removals leaves the committed table exactly as it
was, and the last durable state is the committed result of `cleanup`. -/
theorem sweep_commit_is_final (table : List Metadata) (fs : FS) :
    (∀ s ∈ (sweepTrace table fs).dropLast, s.committed = table) ∧
    (∀ k, (abortedSweep table fs k).committed = table) ∧
    (sweepTrace table fs).getLast? =
      some ⟨(cleanup table fs).table, (cleanup table fs).fs⟩ := by
  refine ⟨?_, fun k => rfl, ?_⟩
  · intro s hs
    simp only [sweepTrace] at hs
    rw [List.dropLast_concat] at hs
    obtain ⟨k, -, rfl⟩ := List.mem_map.mp hs
    rfl
  · simp only [sweepTrace]
    rw [List.getLast?_concat]

/-- C5 witness: aborting the sweep over the seed table right after its
single blob removal leaves the committed table untouched. -/
theorem sweep_commit_is_final_witness :
    (abortedSweep [mStale] fsStale 1).committed = [mStale] :=
  (sweep_commit_is_final [mStale] fsStale).2.1 1

/-- C6 counterexample: the claim says the returned count equals the
number of records actually deleted.  Sweeping one unlinked record whose
blob removal fails with a non-`ErrNotExist` I/O error returns 1 although
no row is deleted: the count is taken from the selection, before the
removal loop can exclude anything. -/
theorem sweep_count_overstates :
    (cleanup [mStuck] fsStuck).count = 1 ∧
    (cleanup [mStuck] fsStuck).table = [mStuck] := by
  decide

/-- C6 (amended): the sweep returns the number of unlinked records
selected, which equals the number of rows actually deleted plus the
number of records excluded because their blob removal failed with an
unexpected I/O error; the two coincide only when nothing is excluded. -/
theorem sweep_count_selected (table : List Metadata) (fs : FS)
    (hids : (table.map Metadata.id).Nodup) :
    (cleanup table fs).count =
      (table.length - (cleanup table fs).table.length) +
      ((selectUnlinked table).filter
        (fun m => decide (m.path ∈ fs.failing))).length := by
  have h1 := cleanup_table_length table fs hids
  have h2 := removeLoop_length fs (selectUnlinked table)
  have h3 : (reclaimedIds table fs).length =
      (removeLoop fs (selectUnlinked table)).1.length := rfl
  rw [h3] at h1
  rw [cleanup_count_eq]
  omega

/-- C6 amended witness: on the mixed seed table the returned count 2 is
one deleted row plus one excluded record. -/
theorem sweep_count_selected_witness :
    (cleanup [mStale, mStuck] fsMix).count =
      (([mStale, mStuck] : List Metadata).length -
        (cleanup [mStale, mStuck] fsMix).table.length) +
      ((selectUnlinked [mStale, mStuck]).filter
        (fun m => decide (m.path ∈ fsMix.failing))).length :=
  sweep_count_selected [mStale, mStuck] fsMix (by decide)

end GameRepository
